import Mathlib

/-!
A verification development for the trace-building core of the smacpp static
analyzer.  The definitions below are a shallow embedding of the repository's
`src/parse/Variable.h` and `src/parse/CodeBlockBuildingVisitor.cpp`:
the symbolic value model, the comparison-operator algebra, and the
path-sensitive trace-building traversal over a clang-style syntax tree.
Types whose implementation lives outside these two files (the `Condition`
class, `BlockRegistry`) are modelled from the design specification and are
marked as such in their doc comments.
-/

namespace smacpp

/-- The comparison-operator enumeration `COMPARISON` from `Variable.h`. -/
inductive COMPARISON where
  | LESS_THAN
  | LESS_THAN_EQUAL
  | GREATER_THAN
  | GREATER_THAN_EQUAL
  | NOT_EQUAL
  | EQUAL
deriving DecidableEq, Fintype

/-- The free function `Negate(COMPARISON)` from `Variable.h`, restricted to the
six enumerators (the `default: throw` branch is modelled separately by
`NegateUnderlying` on the enum's underlying integer values). -/
def Negate : COMPARISON → COMPARISON
  | .LESS_THAN => .GREATER_THAN_EQUAL
  | .LESS_THAN_EQUAL => .GREATER_THAN
  | .GREATER_THAN => .LESS_THAN_EQUAL
  | .GREATER_THAN_EQUAL => .LESS_THAN
  | .NOT_EQUAL => .EQUAL
  | .EQUAL => .NOT_EQUAL

/-- The underlying integer value of each `COMPARISON` enumerator (C++ default
enumeration: `LESS_THAN = 0`, ..., `EQUAL = 5`). -/
def COMPARISON.toUnderlying : COMPARISON → Int
  | .LESS_THAN => 0
  | .LESS_THAN_EQUAL => 1
  | .GREATER_THAN => 2
  | .GREATER_THAN_EQUAL => 3
  | .NOT_EQUAL => 4
  | .EQUAL => 5

/-- The switch in `Negate(COMPARISON)` viewed over the enum's underlying
integer type: a `COMPARISON` value in C++ may hold any integer of the
underlying type, and the `default:` branch throws (`Except.error`). -/
def NegateUnderlying (v : Int) : Except String Int :=
  if v = 0 then .ok 3
  else if v = 1 then .ok 2
  else if v = 2 then .ok 1
  else if v = 3 then .ok 0
  else if v = 4 then .ok 5
  else if v = 5 then .ok 4
  else .error ("negate not implemented for this COMPARISON")

/-- The switch in `Dump(COMPARISON)` viewed over the enum's underlying integer
type; the `default:` branch throws (`Except.error`). -/
def DumpUnderlying (v : Int) : Except String String :=
  if v = 0 then .ok ("<")
  else if v = 1 then .ok ("<=")
  else if v = 2 then .ok (">")
  else if v = 3 then .ok (">=")
  else if v = 4 then .ok ("!=")
  else if v = 5 then .ok ("==")
  else .error ("dump not implemented for this COMPARISON")

/-- `VariableIdentifier` from `Variable.h`: identity is name equality; no
scoping disambiguation. -/
structure VariableIdentifier where
  Name : String
deriving DecidableEq

/-- `BufferInfo` from `Variable.h`.  The C++ member initializers are
`NullPtr = false` and `AllocatedSize = 0`; each constructor overrides exactly
one of them (see `BufferInfo.fromNullptr` and `BufferInfo.fromSize`). -/
structure BufferInfo where
  NullPtr : Bool
  AllocatedSize : Nat
deriving DecidableEq

/-- The `BufferInfo(std::nullptr_t)` constructor: sets `NullPtr = true`,
leaves `AllocatedSize` at its member default `0`. -/
def BufferInfo.fromNullptr : BufferInfo := ⟨true, 0⟩

/-- The `BufferInfo(size_t size)` constructor: sets `AllocatedSize = size`,
leaves `NullPtr` at its member default `false`. -/
def BufferInfo.fromSize (size : Nat) : BufferInfo := ⟨false, size⟩

/-- `PrimitiveInfo` from `Variable.h`.  Its value is a
`variant<bool, long long, double>`; the trace-building translation unit only
ever constructs the `Integer` (64-bit signed) alternative, which is the one
embedded here. -/
structure PrimitiveInfo where
  Value : Int
deriving DecidableEq

/-- `VarCopyInfo` from `Variable.h`. -/
structure VarCopyInfo where
  Source : VariableIdentifier
deriving DecidableEq

/-- `VariableState` from `Variable.h`: the `STATE` tag together with the
payload variant active for that tag (the C++ pairing of `State` and `Value`
collapses to a sum).  A default-constructed `VariableState` is `Unknown`. -/
inductive VariableState where
  | Unknown : VariableState
  | Primitive : PrimitiveInfo → VariableState
  | Buffer : BufferInfo → VariableState
  | CopyVar : VarCopyInfo → VariableState
deriving DecidableEq

/-- `ValueRange::RANGE_CLASS` from `Variable.h`. -/
inductive RANGE_CLASS where
  | NotZero
  | Zero
  | Comparison
  | Constant
deriving DecidableEq

/-- `ValueRange` from `Variable.h` (the field named `Type` in C++ is called
`RangeType` here because `Type` is reserved in Lean). -/
structure ValueRange where
  RangeType : RANGE_CLASS
  Comparison : COMPARISON
  ComparedTo : Option VariableIdentifier
  ComparedConstant : Option VariableState
deriving DecidableEq

/-- The `ValueRange(RANGE_CLASS type)` constructor.  The C++ constructor
leaves the `Comparison` member uninitialized; it is fixed to `LESS_THAN`
here, and nothing in the embedded code reads it for these range classes. -/
def ValueRange.fromClass (t : RANGE_CLASS) : ValueRange :=
  ⟨t, .LESS_THAN, none, none⟩

/-- The `ValueRange(COMPARISON op, VariableIdentifier other)` constructor. -/
def ValueRange.fromComparisonVar (op : COMPARISON) (other : VariableIdentifier) : ValueRange :=
  ⟨.Comparison, op, some other, none⟩

/-- The `ValueRange(COMPARISON op, VariableState constant)` constructor. -/
def ValueRange.fromComparisonConst (op : COMPARISON) (constant : VariableState) : ValueRange :=
  ⟨.Constant, op, none, some constant⟩

/-- Modelled from the spec: `ValueRange::Negate` (its implementation is not
part of the analyzed sources).  The spec requires the exact logical
complement per range class: `NotZero` and `Zero` swap, and the two
comparison classes negate their stored operator via `Negate(COMPARISON)`. -/
def ValueRange.Negate (r : ValueRange) : ValueRange :=
  match r.RangeType with
  | .NotZero => ⟨.Zero, r.Comparison, r.ComparedTo, r.ComparedConstant⟩
  | .Zero => ⟨.NotZero, r.Comparison, r.ComparedTo, r.ComparedConstant⟩
  | .Comparison => ⟨.Comparison, smacpp.Negate r.Comparison, r.ComparedTo, r.ComparedConstant⟩
  | .Constant => ⟨.Constant, smacpp.Negate r.Comparison, r.ComparedTo, r.ComparedConstant⟩

/-- Modelled from the spec: the `Condition` path-predicate class (its
implementation is not part of the analyzed sources).  The spec gives it an
internal representation sufficient to support conjunction (`And`) and
`Negate`, built over `ValueRange` constraints on variables; `always` is a
guard statically known to be non-zero (e.g. a non-zero integer literal) and
`never` its complement. -/
inductive Condition where
  | always : Condition
  | never : Condition
  | atom : VariableIdentifier → ValueRange → Condition
  | conj : Condition → Condition → Condition
  | disj : Condition → Condition → Condition
deriving DecidableEq

/-- Modelled from the spec: `Condition::And` returns the conjunction. -/
def Condition.And (a b : Condition) : Condition := .conj a b

/-- Modelled from the spec: `Condition::Negate` returns the logical
complement, pushing negation through conjunction and disjunction and
negating atoms via `ValueRange.Negate`. -/
def Condition.Negate : Condition → Condition
  | .always => .never
  | .never => .always
  | .atom v r => .atom v r.Negate
  | .conj l r => .disj l.Negate r.Negate
  | .disj l r => .conj l.Negate r.Negate

/-- Modelled from the spec: `Condition::IsAlwaysTrue` is a conservative
structural tautology test (false negatives allowed, false positives
forbidden); atoms are never judged always-true. -/
def Condition.IsAlwaysTrue : Condition → Bool
  | .always => true
  | .never => false
  | .atom _ _ => false
  | .conj l r => l.IsAlwaysTrue && r.IsAlwaysTrue
  | .disj l r => l.IsAlwaysTrue || r.IsAlwaysTrue

/-- The only property of a `clang::BinaryOperator` opcode the trace builder
inspects is whether it equals `BO_Assign`. -/
inductive BinOpcode where
  | assign
  | other
deriving DecidableEq

mutual
/-- The fragment of the clang expression tree consumed by the trace builder:
variable references (`DeclRefExpr` whose declaration is a `VarDecl`),
references to non-variable declarations, integer literals (carrying their
mathematical value), string literals (carrying `getBytes()`, the content
bytes with no terminator), binary operators, array subscripts, and call
expressions (carrying the resolved direct callee, if any, and the argument
list). -/
inductive Expr where
  | declRefVar : String → Expr
  | declRefOther : String → Expr
  | integerLiteral : Int → Expr
  | stringLiteral : List Nat → Expr
  | binaryOp : BinOpcode → Expr → Expr → Expr
  | arraySubscript : Expr → Expr → Expr
  | callExpr : Option String → ExprList → Expr
/-- A list of expressions (call arguments), kept as a mutual inductive so the
traversal functions are structurally recursive. -/
inductive ExprList where
  | nil : ExprList
  | cons : Expr → ExprList → ExprList
end

mutual
/-- The fragment of the clang statement tree consumed by the trace builder:
expression statements, compound statements, `if` statements (guard, then
branch, else branch; an absent branch is `nullStmt`), and variable
declarations (name, whether the declaration is a `ParmVarDecl`, and the
optional initializer expression). -/
inductive Stmt where
  | expr : Expr → Stmt
  | compound : StmtList → Stmt
  | ifStmt : Expr → Stmt → Stmt → Stmt
  | declStmt : String → Bool → Option Expr → Stmt
  | nullStmt : Stmt
/-- A list of statements (a compound statement's body). -/
inductive StmtList where
  | nil : StmtList
  | cons : Stmt → StmtList → StmtList
end

/-- `llvm::APInt::getSExtValue`: the literal's value sign-extended from its
low 64 bits into a signed 64-bit integer. -/
def toSigned64 (v : Int) : Int := (v + 2 ^ 63) % 2 ^ 64 - 2 ^ 63

/-- Modelled from the spec: the `Condition(guardExpression)` constructor (its
implementation is not part of the analyzed sources).  It models a guard
statically known to be non-zero or zero (an integer literal) or a plain
variable reference (constrained `NotZero`), and fails with a recoverable
parse error on every other guard shape. -/
def Condition.fromExpr : Expr → Except String Condition
  | .integerLiteral v => if v = 0 then .ok .never else .ok .always
  | .declRefVar name => .ok (.atom ⟨name⟩ (ValueRange.fromClass .NotZero))
  | _ => .error ("unsupported guard expression shape")

/-- The `ProcessedAction` variants emitted by the trace builder, each
carrying the path condition in effect when it was recorded (source locations
are elided: the embedded claims do not concern them). -/
inductive ProcessedAction where
  | VarDeclared : Condition → VariableIdentifier → VariableState → ProcessedAction
  | VarAssigned : Condition → VariableIdentifier → VariableState → ProcessedAction
  | ArrayIndexAccess : Condition → VariableIdentifier → VariableState → ProcessedAction
  | FunctionCall : Condition → String → List VariableState → ProcessedAction
deriving DecidableEq

/-- The path condition recorded in an action. -/
def ProcessedAction.cond : ProcessedAction → Condition
  | .VarDeclared c _ _ => c
  | .VarAssigned c _ _ => c
  | .ArrayIndexAccess c _ _ => c
  | .FunctionCall c _ _ => c

/-- Whether an action is a `VarAssigned` record. -/
def ProcessedAction.isVarAssigned : ProcessedAction → Bool
  | .VarAssigned _ _ _ => true
  | _ => false

/-- Whether an action is a `VarDeclared` record. -/
def ProcessedAction.isVarDeclared : ProcessedAction → Bool
  | .VarDeclared _ _ _ => true
  | _ => false

/-- The state of `CodeBlockBuildingVisitor::VariableRefOrArrayVisitor`:
the current whole-variable candidate `FoundVar` and the
`LikelyFullVariableAssign` flag (initially `true`). -/
structure RefOrArrayState where
  FoundVar : Option VariableIdentifier
  LikelyFullVariableAssign : Bool
deriving DecidableEq

/-- The initial state of the sub-visitor (`FoundVar` empty, flag `true`). -/
def initialRefOrArrayState : RefOrArrayState := ⟨none, true⟩

mutual
/-- The `VariableRefOrArrayVisitor` sub-traversal: clang's recursive visitor
walks the expression preorder; `VisitDeclRefExpr` on a variable reference
records it as `FoundVar` while `LikelyFullVariableAssign` still holds, and
`VisitArraySubscriptExpr` clears the flag before the subscript's children are
walked.  References to non-variable declarations are ignored. -/
def refOrArrayVisit : RefOrArrayState → Expr → RefOrArrayState
  | s, .declRefVar name =>
      if s.LikelyFullVariableAssign then ⟨some ⟨name⟩, s.LikelyFullVariableAssign⟩ else s
  | s, .declRefOther _ => s
  | s, .integerLiteral _ => s
  | s, .stringLiteral _ => s
  | s, .binaryOp _ lhs rhs => refOrArrayVisit (refOrArrayVisit s lhs) rhs
  | s, .arraySubscript base idx =>
      refOrArrayVisit (refOrArrayVisit ⟨s.FoundVar, false⟩ base) idx
  | s, .callExpr _ args => refOrArrayVisitList s args
/-- `refOrArrayVisit` folded over an argument list in order. -/
def refOrArrayVisitList : RefOrArrayState → ExprList → RefOrArrayState
  | s, .nil => s
  | s, .cons e rest => refOrArrayVisitList (refOrArrayVisit s e) rest
end

/-- The `FoundVar` result of running `VariableRefOrArrayVisitor` from its
initial state over an expression. -/
def refOrArrayFound (e : Expr) : Option VariableIdentifier :=
  (refOrArrayVisit initialRefOrArrayState e).FoundVar

mutual
/-- The `VariableStateFindVisitor` sub-traversal: it overrides
`TraverseIntegerLiteral` to record `Primitive(getSExtValue())` and abort, so
its result is the first integer literal reached in preorder, if any. -/
def stateFindExpr : Expr → Option VariableState
  | .integerLiteral v => some (.Primitive ⟨toSigned64 v⟩)
  | .declRefVar _ => none
  | .declRefOther _ => none
  | .stringLiteral _ => none
  | .binaryOp _ lhs rhs =>
      match stateFindExpr lhs with
      | some s => some s
      | none => stateFindExpr rhs
  | .arraySubscript base idx =>
      match stateFindExpr base with
      | some s => some s
      | none => stateFindExpr idx
  | .callExpr _ args => stateFindList args
/-- `stateFindExpr` over an argument list: first hit wins. -/
def stateFindList : ExprList → Option VariableState
  | .nil => none
  | .cons e rest =>
      match stateFindExpr e with
      | some s => some s
      | none => stateFindList rest
end

/-- One call argument as probed by `TraverseCallExpr`: the sub-visitor's
found value, or a default-constructed (`Unknown`) `VariableState`. -/
def probeArg (e : Expr) : VariableState :=
  match stateFindExpr e with
  | some s => s
  | none => .Unknown

/-- All call arguments probed independently, in argument order. -/
def probeArgs : ExprList → List VariableState
  | .nil => []
  | .cons e rest => probeArg e :: probeArgs rest

/-- The initializer-dependent initial state computed by `VisitVarDecl`:
`Buffer(getByteLength())` when the initializer's statement class is
`StringLiteralClass`, otherwise the default `Unknown`. -/
def declInitState : Option Expr → VariableState
  | some (.stringLiteral bytes) => .Buffer (BufferInfo.fromSize bytes.length)
  | _ => .Unknown

/-- The action emitted by `VisitBinaryOperator`: nothing unless the opcode is
`BO_Assign`; for an assignment, one `VarAssigned(target, CopyVar(source))`
exactly when the `VariableRefOrArrayVisitor` sub-traversals of both sides
produce a `FoundVar`. -/
def binaryOpAction (cond : Condition) (opcode : BinOpcode) (lhs rhs : Expr) :
    List ProcessedAction :=
  match opcode with
  | .other => []
  | .assign =>
      match refOrArrayFound lhs, refOrArrayFound rhs with
      | some target, some source => [.VarAssigned cond target (.CopyVar ⟨source⟩)]
      | _, _ => []

/-- The index value computed by `VisitArraySubscriptExpr`: a `Primitive` only
when the index's statement class is itself `IntegerLiteralClass`. -/
def subscriptIndexState (idx : Expr) : VariableState :=
  match idx with
  | .integerLiteral v => .Primitive ⟨toSigned64 v⟩
  | _ => .Unknown

/-- The action emitted by `VisitArraySubscriptExpr`: one `ArrayIndexAccess`
exactly when the sub-traversal of the base produces a `FoundVar` and the
index value is not `Unknown`. -/
def subscriptAction (cond : Condition) (base idx : Expr) : List ProcessedAction :=
  match refOrArrayFound base with
  | none => []
  | some arrayVar =>
      match subscriptIndexState idx with
      | .Unknown => []
      | st => [.ArrayIndexAccess cond arrayVar st]

/-- The expression part of the `ValueVisitBase` traversal under path
condition `cond`.  Clang's visitor calls the `Visit` hooks before walking a
node's children; `TraverseCallExpr` is overridden and does not walk into the
call (arguments are only probed by `VariableStateFindVisitor`, and an
indirect call — no direct callee — is skipped entirely). -/
def valueVisitExpr (cond : Condition) : Expr → List ProcessedAction
  | .declRefVar _ => []
  | .declRefOther _ => []
  | .integerLiteral _ => []
  | .stringLiteral _ => []
  | .binaryOp opcode lhs rhs =>
      binaryOpAction cond opcode lhs rhs
        ++ valueVisitExpr cond lhs ++ valueVisitExpr cond rhs
  | .arraySubscript base idx =>
      subscriptAction cond base idx
        ++ valueVisitExpr cond base ++ valueVisitExpr cond idx
  | .callExpr none _ => []
  | .callExpr (some callee) args => [.FunctionCall cond callee (probeArgs args)]

mutual
/-- The statement part of the `ValueVisitBase` traversal under path condition
`cond`, emitting actions in traversal order.  `VisitVarDecl` skips
`ParmVarDecl`s and otherwise emits `VarDeclared` before the initializer is
walked.  `TraverseIfStmt` builds the guard's `Condition`; on a parse error it
skips the whole statement, and otherwise it walks the then branch under
`cond AND condition` unless the negated condition is provably always-true,
followed by the else branch under `cond AND negated` unless the condition is
provably always-true.  The guard expression itself is never walked. -/
def valueVisitStmt (cond : Condition) : Stmt → List ProcessedAction
  | .expr e => valueVisitExpr cond e
  | .nullStmt => []
  | .compound stmts => valueVisitStmtList cond stmts
  | .declStmt name isParm init =>
      (if isParm then [] else [.VarDeclared cond ⟨name⟩ (declInitState init)])
        ++ (match init with
            | some e => valueVisitExpr cond e
            | none => [])
  | .ifStmt guard thenStmt elseStmt =>
      match Condition.fromExpr guard with
      | .error _ => []
      | .ok condition =>
          (if condition.Negate.IsAlwaysTrue then []
           else valueVisitStmt (cond.And condition) thenStmt)
            ++ (if condition.IsAlwaysTrue then []
                else valueVisitStmt (cond.And condition.Negate) elseStmt)
/-- `valueVisitStmt` over the statements of a compound, in order. -/
def valueVisitStmtList (cond : Condition) : StmtList → List ProcessedAction
  | .nil => []
  | .cons s rest => valueVisitStmt cond s ++ valueVisitStmtList cond rest
end

/-- A per-function trace: the function's qualified name, its declaration
location (`getBeginLoc`, encoded as a number), the parameter identifiers, and
the ordered action sequence. -/
structure CodeBlock where
  Name : String
  Loc : Nat
  Parameters : List VariableIdentifier
  Actions : List ProcessedAction
deriving DecidableEq

/-- A `clang::FunctionDecl` as consumed by `TraverseFunctionDecl`: qualified
name, begin location, parameter names, and the optional body (a forward
declaration has none). -/
structure FunctionDecl where
  qualifiedName : String
  beginLoc : Nat
  parameters : List String
  body : Option Stmt

/-- Modelled from the spec: `BlockRegistry` collects one `CodeBlock` per
analyzed function for the run (its implementation is not part of the
analyzed sources); `AddBlock` inserts, with no update-in-place semantics. -/
abbrev BlockRegistry := List CodeBlock

/-- Modelled from the spec: `BlockRegistry::AddBlock` inserts the block. -/
def AddBlock (registry : BlockRegistry) (block : CodeBlock) : BlockRegistry :=
  registry ++ [block]

/-- The block built for one function by `TraverseFunctionDecl` and its
`FunctionVisitor` pass: parameters are added by `VisitParmVarDecl`, and the
body (when present) is traversed under the root condition, which the spec
fixes as always-true. -/
def functionBlock (fn : FunctionDecl) : CodeBlock :=
  ⟨fn.qualifiedName, fn.beginLoc, fn.parameters.map VariableIdentifier.mk,
    match fn.body with
    | some b => valueVisitStmt .always b
    | none => []⟩

/-- `CodeBlockBuildingVisitor::TraverseFunctionDecl`: build the block for the
visited declaration (with or without a body) and register it. -/
def TraverseFunctionDecl (registry : BlockRegistry) (fn : FunctionDecl) : BlockRegistry :=
  AddBlock registry (functionBlock fn)

/-! ### A preorder-event characterization of the sub-visitors

The two sub-visitors are folds over the expression preorder.  The event lists
below restate what each one observes, so that the emission rules can be
phrased independently of the visitor state machines and then proved equal to
them. -/

/-- What `VariableRefOrArrayVisitor` reacts to while walking an expression:
a reference to a variable, or an array subscript node. -/
inductive RefEvent where
  | varRef : String → RefEvent
  | subscript : RefEvent
deriving DecidableEq

mutual
/-- The preorder sequence of `RefEvent`s in an expression: a subscript node
is seen before its base and index. -/
def refEvents : Expr → List RefEvent
  | .declRefVar name => [.varRef name]
  | .declRefOther _ => []
  | .integerLiteral _ => []
  | .stringLiteral _ => []
  | .binaryOp _ lhs rhs => refEvents lhs ++ refEvents rhs
  | .arraySubscript base idx => .subscript :: (refEvents base ++ refEvents idx)
  | .callExpr _ args => refEventsList args
/-- `refEvents` over an argument list, in order. -/
def refEventsList : ExprList → List RefEvent
  | .nil => []
  | .cons e rest => refEvents e ++ refEventsList rest
end

/-- The variable names referenced before the first subscript event. -/
def namesBeforeSubscript : List RefEvent → List String
  | [] => []
  | .varRef n :: rest => n :: namesBeforeSubscript rest
  | .subscript :: _ => []

/-- The last element of a list of names, if any. -/
def lastVarName : List String → Option String
  | [] => none
  | [n] => some n
  | _ :: n2 :: rest => lastVarName (n2 :: rest)

/-- The whole-variable candidate of an expression, stated via preorder
events: the last variable referenced before any subscript node is reached. -/
def wholeVariableCandidate (e : Expr) : Option VariableIdentifier :=
  (lastVarName (namesBeforeSubscript (refEvents e))).map VariableIdentifier.mk

/-- One step of `VariableRefOrArrayVisitor` on one observed event. -/
def stepEvent (s : RefOrArrayState) : RefEvent → RefOrArrayState
  | .varRef name =>
      if s.LikelyFullVariableAssign then ⟨some ⟨name⟩, s.LikelyFullVariableAssign⟩ else s
  | .subscript => ⟨s.FoundVar, false⟩

theorem lastVarName_cons (a : String) (l : List String) :
    lastVarName (a :: l) = some ((lastVarName l).getD a) := by
  induction l generalizing a with
  | nil => rfl
  | cons b l2 ih => simp [lastVarName, ih b]

mutual
theorem refOrArrayVisit_eq_foldl (s : RefOrArrayState) (e : Expr) :
    refOrArrayVisit s e = List.foldl stepEvent s (refEvents e) := by
  cases e with
  | declRefVar name => simp [refOrArrayVisit, refEvents, stepEvent]
  | declRefOther name => simp [refOrArrayVisit, refEvents]
  | integerLiteral v => simp [refOrArrayVisit, refEvents]
  | stringLiteral bytes => simp [refOrArrayVisit, refEvents]
  | binaryOp opcode lhs rhs =>
      rw [refOrArrayVisit, refEvents, List.foldl_append,
        refOrArrayVisit_eq_foldl s lhs, refOrArrayVisit_eq_foldl _ rhs]
  | arraySubscript base idx =>
      rw [refOrArrayVisit, refEvents, List.foldl_cons, List.foldl_append,
        refOrArrayVisit_eq_foldl (⟨s.FoundVar, false⟩ : RefOrArrayState) base,
        refOrArrayVisit_eq_foldl _ idx]
      rfl
  | callExpr callee args =>
      rw [refOrArrayVisit, refEvents, refOrArrayVisitList_eq_foldl s args]
theorem refOrArrayVisitList_eq_foldl (s : RefOrArrayState) (es : ExprList) :
    refOrArrayVisitList s es = List.foldl stepEvent s (refEventsList es) := by
  cases es with
  | nil => rfl
  | cons e rest =>
      rw [refOrArrayVisitList, refEventsList, List.foldl_append,
        refOrArrayVisit_eq_foldl s e, refOrArrayVisitList_eq_foldl _ rest]
end

theorem foldl_stepEvent_false (f : Option VariableIdentifier) (evs : List RefEvent) :
    List.foldl stepEvent ⟨f, false⟩ evs = ⟨f, false⟩ := by
  induction evs with
  | nil => rfl
  | cons ev rest ih => cases ev <;> simpa [stepEvent] using ih

theorem foldl_stepEvent_found (f : Option VariableIdentifier) (evs : List RefEvent) :
    (List.foldl stepEvent ⟨f, true⟩ evs).FoundVar =
      match lastVarName (namesBeforeSubscript evs) with
      | some n => some ⟨n⟩
      | none => f := by
  induction evs generalizing f with
  | nil => rfl
  | cons ev rest ih =>
      cases ev with
      | varRef n =>
          have hstep : stepEvent ⟨f, true⟩ (.varRef n) = ⟨some ⟨n⟩, true⟩ := rfl
          rw [List.foldl_cons, hstep, ih (some ⟨n⟩)]
          simp only [namesBeforeSubscript, lastVarName_cons]
          cases h : lastVarName (namesBeforeSubscript rest) <;> simp [h]
      | subscript =>
          have hstep : stepEvent ⟨f, true⟩ .subscript = ⟨f, false⟩ := rfl
          rw [List.foldl_cons, hstep, foldl_stepEvent_false]
          rfl

/-- The sub-visitor's result is exactly the last variable referenced in
preorder before any subscript node. -/
theorem refOrArrayFound_eq_candidate (e : Expr) :
    refOrArrayFound e = wholeVariableCandidate e := by
  rw [refOrArrayFound, initialRefOrArrayState, refOrArrayVisit_eq_foldl,
    foldl_stepEvent_found, wholeVariableCandidate]
  cases h : lastVarName (namesBeforeSubscript (refEvents e)) <;> simp [h]

mutual
/-- The preorder sequence of integer-literal values in an expression. -/
def literalValues : Expr → List Int
  | .integerLiteral v => [v]
  | .declRefVar _ => []
  | .declRefOther _ => []
  | .stringLiteral _ => []
  | .binaryOp _ lhs rhs => literalValues lhs ++ literalValues rhs
  | .arraySubscript base idx => literalValues base ++ literalValues idx
  | .callExpr _ args => literalValuesList args
/-- `literalValues` over an argument list, in order. -/
def literalValuesList : ExprList → List Int
  | .nil => []
  | .cons e rest => literalValues e ++ literalValuesList rest
end

mutual
theorem stateFindExpr_eq_firstLiteral (e : Expr) :
    stateFindExpr e =
      (literalValues e).head?.map (fun v => VariableState.Primitive ⟨toSigned64 v⟩) := by
  cases e with
  | declRefVar name => rfl
  | declRefOther name => rfl
  | integerLiteral v => rfl
  | stringLiteral bytes => rfl
  | binaryOp opcode lhs rhs =>
      rw [stateFindExpr, literalValues, stateFindExpr_eq_firstLiteral lhs,
        stateFindExpr_eq_firstLiteral rhs]
      cases h : literalValues lhs <;> simp
  | arraySubscript base idx =>
      rw [stateFindExpr, literalValues, stateFindExpr_eq_firstLiteral base,
        stateFindExpr_eq_firstLiteral idx]
      cases h : literalValues base <;> simp
  | callExpr callee args =>
      rw [stateFindExpr, literalValues, stateFindList_eq_firstLiteral args]
theorem stateFindList_eq_firstLiteral (es : ExprList) :
    stateFindList es =
      (literalValuesList es).head?.map (fun v => VariableState.Primitive ⟨toSigned64 v⟩) := by
  cases es with
  | nil => rfl
  | cons e rest =>
      rw [stateFindList, literalValuesList, stateFindExpr_eq_firstLiteral e,
        stateFindList_eq_firstLiteral rest]
      cases h : literalValues e <;> simp
end

/-! ### Condition-tag bookkeeping

Every action emitted while traversing under a path condition carries a tag
whose left conjunct spine passes through that condition; this is what makes
"no action tagged with the pruned branch's condition" provable. -/

/-- Structural size of a condition. -/
def Condition.size : Condition → Nat
  | .always => 1
  | .never => 1
  | .atom _ _ => 1
  | .conj l r => l.size + r.size + 1
  | .disj l r => l.size + r.size + 1

/-- Whether `b` occurs on the left conjunct spine of `t` (including `t`
itself). -/
def Condition.hasBase : Condition → Condition → Bool
  | .always, b => decide (Condition.always = b)
  | .never, b => decide (Condition.never = b)
  | .atom v r, b => decide (Condition.atom v r = b)
  | .disj l r, b => decide (Condition.disj l r = b)
  | .conj l r, b => decide (Condition.conj l r = b) || Condition.hasBase l b

theorem hasBase_self (c : Condition) : c.hasBase c = true := by
  cases c <;> simp [Condition.hasBase]

theorem hasBase_size (t b : Condition) (h : t.hasBase b = true) : b.size ≤ t.size := by
  cases t with
  | always =>
      rw [Condition.hasBase, decide_eq_true_eq] at h
      exact le_of_eq (by rw [h])
  | never =>
      rw [Condition.hasBase, decide_eq_true_eq] at h
      exact le_of_eq (by rw [h])
  | atom v r =>
      rw [Condition.hasBase, decide_eq_true_eq] at h
      exact le_of_eq (by rw [h])
  | disj l r =>
      rw [Condition.hasBase, decide_eq_true_eq] at h
      exact le_of_eq (by rw [h])
  | conj l r =>
      rw [Condition.hasBase, Bool.or_eq_true, decide_eq_true_eq] at h
      rcases h with heq | hb
      · exact le_of_eq (by rw [heq])
      · have := hasBase_size l b hb
        simp only [Condition.size]
        omega

theorem hasBase_trans (t u v : Condition) (h1 : t.hasBase u = true)
    (h2 : u.hasBase v = true) : t.hasBase v = true := by
  cases t with
  | always => rw [Condition.hasBase, decide_eq_true_eq] at h1; rw [h1]; exact h2
  | never => rw [Condition.hasBase, decide_eq_true_eq] at h1; rw [h1]; exact h2
  | atom a r => rw [Condition.hasBase, decide_eq_true_eq] at h1; rw [h1]; exact h2
  | disj l r => rw [Condition.hasBase, decide_eq_true_eq] at h1; rw [h1]; exact h2
  | conj l r =>
      rw [Condition.hasBase, Bool.or_eq_true, decide_eq_true_eq] at h1
      rcases h1 with heq | hb
      · rw [heq]; exact h2
      · rw [Condition.hasBase, Bool.or_eq_true]
        exact Or.inr (hasBase_trans l u v hb h2)

theorem not_hasBase_conj_of_ne (outer x y : Condition) (hxy : x ≠ y) :
    ¬ (Condition.conj outer x).hasBase (Condition.conj outer y) = true := by
  intro h
  rw [Condition.hasBase, Bool.or_eq_true, decide_eq_true_eq] at h
  rcases h with heq | hb
  · exact hxy (by injection heq with h1 h2)
  · have := hasBase_size outer (Condition.conj outer y) hb
    simp only [Condition.size] at this
    omega

theorem binaryOpAction_shape (cond : Condition) (opcode : BinOpcode) (lhs rhs : Expr) :
    ∀ a ∈ binaryOpAction cond opcode lhs rhs,
      a.cond = cond ∧ a.isVarDeclared = false := by
  intro a ha
  cases opcode with
  | other => simp [binaryOpAction] at ha
  | assign =>
      rw [binaryOpAction] at ha
      cases h1 : refOrArrayFound lhs <;> cases h2 : refOrArrayFound rhs <;>
        simp [h1, h2] at ha
      subst ha
      exact ⟨rfl, rfl⟩

theorem subscriptAction_shape (cond : Condition) (base idx : Expr) :
    ∀ a ∈ subscriptAction cond base idx,
      a.cond = cond ∧ a.isVarDeclared = false := by
  intro a ha
  rw [subscriptAction] at ha
  cases h1 : refOrArrayFound base <;> rw [h1] at ha
  · simp at ha
  · cases h2 : subscriptIndexState idx <;> rw [h2] at ha <;> simp at ha <;>
      (subst ha; exact ⟨rfl, rfl⟩)

theorem valueVisitExpr_shape (cond : Condition) (e : Expr) :
    ∀ a ∈ valueVisitExpr cond e, a.cond = cond ∧ a.isVarDeclared = false := by
  intro a ha
  cases e with
  | declRefVar name => simp [valueVisitExpr] at ha
  | declRefOther name => simp [valueVisitExpr] at ha
  | integerLiteral v => simp [valueVisitExpr] at ha
  | stringLiteral bytes => simp [valueVisitExpr] at ha
  | binaryOp opcode lhs rhs =>
      rw [valueVisitExpr] at ha
      rcases List.mem_append.mp ha with h | h
      · rcases List.mem_append.mp h with h | h
        · exact binaryOpAction_shape cond opcode lhs rhs a h
        · exact valueVisitExpr_shape cond lhs a h
      · exact valueVisitExpr_shape cond rhs a h
  | arraySubscript base idx =>
      rw [valueVisitExpr] at ha
      rcases List.mem_append.mp ha with h | h
      · rcases List.mem_append.mp h with h | h
        · exact subscriptAction_shape cond base idx a h
        · exact valueVisitExpr_shape cond base a h
      · exact valueVisitExpr_shape cond idx a h
  | callExpr callee args =>
      cases callee with
      | none => simp [valueVisitExpr] at ha
      | some name =>
          simp only [valueVisitExpr, List.mem_singleton] at ha
          subst ha
          exact ⟨rfl, rfl⟩

mutual
theorem valueVisitStmt_hasBase (cond : Condition) (s : Stmt) :
    ∀ a ∈ valueVisitStmt cond s, a.cond.hasBase cond = true := by
  intro a ha
  cases s with
  | expr e =>
      rw [valueVisitStmt] at ha
      rw [(valueVisitExpr_shape cond e a ha).1]
      exact hasBase_self cond
  | nullStmt => simp [valueVisitStmt] at ha
  | compound stmts =>
      rw [valueVisitStmt] at ha
      exact valueVisitStmtList_hasBase cond stmts a ha
  | declStmt name isParm init =>
      cases isParm with
      | true =>
          cases init with
          | none => simp [valueVisitStmt] at ha
          | some e =>
              simp [valueVisitStmt] at ha
              rw [(valueVisitExpr_shape cond e a ha).1]
              exact hasBase_self cond
      | false =>
          cases init with
          | none =>
              simp [valueVisitStmt] at ha
              rw [ha]
              exact hasBase_self cond
          | some e =>
              simp [valueVisitStmt] at ha
              rcases ha with rfl | h
              · exact hasBase_self cond
              · rw [(valueVisitExpr_shape cond e a h).1]
                exact hasBase_self cond
  | ifStmt guard thenStmt elseStmt =>
      rw [valueVisitStmt] at ha
      cases hg : Condition.fromExpr guard with
      | error msg => rw [hg] at ha; simp at ha
      | ok c =>
          rw [hg] at ha
          have hbase : ∀ d : Condition, (Condition.And cond d).hasBase cond = true := by
            intro d
            rw [Condition.And, Condition.hasBase, Bool.or_eq_true]
            exact Or.inr (hasBase_self cond)
          rcases List.mem_append.mp ha with h | h
          · by_cases hneg : c.Negate.IsAlwaysTrue = true
            · rw [if_pos hneg] at h; simp at h
            · rw [if_neg hneg] at h
              exact hasBase_trans _ _ _
                (valueVisitStmt_hasBase (cond.And c) thenStmt a h) (hbase c)
          · by_cases hcond : c.IsAlwaysTrue = true
            · rw [if_pos hcond] at h; simp at h
            · rw [if_neg hcond] at h
              exact hasBase_trans _ _ _
                (valueVisitStmt_hasBase (cond.And c.Negate) elseStmt a h) (hbase c.Negate)
theorem valueVisitStmtList_hasBase (cond : Condition) (ss : StmtList) :
    ∀ a ∈ valueVisitStmtList cond ss, a.cond.hasBase cond = true := by
  intro a ha
  cases ss with
  | nil => simp [valueVisitStmtList] at ha
  | cons s rest =>
      rw [valueVisitStmtList] at ha
      rcases List.mem_append.mp ha with h | h
      · exact valueVisitStmt_hasBase cond s a h
      · exact valueVisitStmtList_hasBase cond rest a h
end

theorem fromExpr_ok_cases (guard : Expr) (c : Condition)
    (h : Condition.fromExpr guard = Except.ok c) :
    c = .always ∨ c = .never ∨ ∃ v, c = .atom v (ValueRange.fromClass .NotZero) := by
  cases guard with
  | integerLiteral v =>
      by_cases hv : v = 0
      · simp [Condition.fromExpr, hv] at h
        exact Or.inr (Or.inl h.symm)
      · simp [Condition.fromExpr, hv] at h
        exact Or.inl h.symm
  | declRefVar name =>
      simp [Condition.fromExpr] at h
      exact Or.inr (Or.inr ⟨⟨name⟩, h.symm⟩)
  | declRefOther name => simp [Condition.fromExpr] at h
  | stringLiteral bytes => simp [Condition.fromExpr] at h
  | binaryOp opcode lhs rhs => simp [Condition.fromExpr] at h
  | arraySubscript base idx => simp [Condition.fromExpr] at h
  | callExpr callee args => simp [Condition.fromExpr] at h

theorem fromExpr_negate_ne (guard : Expr) (c : Condition)
    (h : Condition.fromExpr guard = Except.ok c) : c.Negate ≠ c := by
  rcases fromExpr_ok_cases guard c h with rfl | rfl | ⟨v, rfl⟩
  · simp [Condition.Negate]
  · simp [Condition.Negate]
  · simp [Condition.Negate, ValueRange.Negate, ValueRange.fromClass]

theorem fromExpr_isAlwaysTrue (guard : Expr) (c : Condition)
    (h : Condition.fromExpr guard = Except.ok c) (ht : c.IsAlwaysTrue = true) :
    c = .always := by
  rcases fromExpr_ok_cases guard c h with rfl | rfl | ⟨v, rfl⟩
  · rfl
  · simp [Condition.IsAlwaysTrue] at ht
  · simp [Condition.IsAlwaysTrue] at ht

theorem fromExpr_negate_isAlwaysTrue (guard : Expr) (c : Condition)
    (h : Condition.fromExpr guard = Except.ok c) (ht : c.Negate.IsAlwaysTrue = true) :
    c = .never := by
  rcases fromExpr_ok_cases guard c h with rfl | rfl | ⟨v, rfl⟩
  · simp [Condition.Negate, Condition.IsAlwaysTrue] at ht
  · rfl
  · simp [Condition.Negate, Condition.IsAlwaysTrue] at ht

/-- C1: for an `if` statement whose guard is modeled as a `Condition`, when
the condition is provably always-true the else branch is not traversed (the
statement's whole emission is exactly the then-branch traversal) and no
emitted action is tagged with the negated (else) condition; symmetrically,
when the negated condition is provably always-true the then branch is not
traversed and no emitted action is tagged with the positive (then)
condition. -/
theorem ifStmt_dead_branch_pruning (outer c : Condition) (guard : Expr)
    (thenStmt elseStmt : Stmt)
    (hok : Condition.fromExpr guard = Except.ok c) :
    (c.IsAlwaysTrue = true →
      valueVisitStmt outer (.ifStmt guard thenStmt elseStmt)
          = valueVisitStmt (outer.And c) thenStmt
        ∧ ∀ a ∈ valueVisitStmt outer (.ifStmt guard thenStmt elseStmt),
            a.cond ≠ outer.And c.Negate)
      ∧ (c.Negate.IsAlwaysTrue = true →
      valueVisitStmt outer (.ifStmt guard thenStmt elseStmt)
          = valueVisitStmt (outer.And c.Negate) elseStmt
        ∧ ∀ a ∈ valueVisitStmt outer (.ifStmt guard thenStmt elseStmt),
            a.cond ≠ outer.And c) := by
  have hne := fromExpr_negate_ne guard c hok
  constructor
  · intro ht
    have hc := fromExpr_isAlwaysTrue guard c hok ht
    subst hc
    have hvisit : valueVisitStmt outer (.ifStmt guard thenStmt elseStmt)
        = valueVisitStmt (outer.And .always) thenStmt := by
      simp [valueVisitStmt, hok, Condition.Negate, Condition.IsAlwaysTrue]
    refine ⟨hvisit, ?_⟩
    intro a ha heq
    rw [hvisit] at ha
    have hb := valueVisitStmt_hasBase (outer.And .always) thenStmt a ha
    rw [heq] at hb
    exact not_hasBase_conj_of_ne outer Condition.always.Negate Condition.always hne hb
  · intro ht
    have hc := fromExpr_negate_isAlwaysTrue guard c hok ht
    subst hc
    have hvisit : valueVisitStmt outer (.ifStmt guard thenStmt elseStmt)
        = valueVisitStmt (outer.And Condition.never.Negate) elseStmt := by
      simp [valueVisitStmt, hok, Condition.Negate, Condition.IsAlwaysTrue]
    refine ⟨hvisit, ?_⟩
    intro a ha heq
    rw [hvisit] at ha
    have hb := valueVisitStmt_hasBase (outer.And Condition.never.Negate) elseStmt a ha
    rw [heq] at hb
    exact not_hasBase_conj_of_ne outer Condition.never Condition.never.Negate
      (Ne.symm hne) hb

/-- Example then branch used in closed instances: `int tvar;`. -/
def thenBranchExample : Stmt := .declStmt ("tvar") false none

/-- Example else branch used in closed instances: `int evar;`. -/
def elseBranchExample : Stmt := .declStmt ("evar") false none

/-- Witness for C1 at `if(1)`: the guard models as the always-true condition
and the statement's emission is exactly the then-branch traversal under
`outer AND condition`. -/
theorem ifStmt_dead_branch_pruning_witness :
    valueVisitStmt Condition.always
        (.ifStmt (.integerLiteral 1) thenBranchExample elseBranchExample)
      = valueVisitStmt (Condition.always.And Condition.always) thenBranchExample :=
  ((ifStmt_dead_branch_pruning Condition.always Condition.always (.integerLiteral 1)
    thenBranchExample elseBranchExample rfl).1 rfl).1

/-- C2: for an `if` statement whose guard cannot be modeled as a `Condition`,
no action is emitted for either branch (the whole conditional contributes
nothing) and traversal of the statements following the conditional continues
normally. -/
theorem ifStmt_guard_parse_failure_skips (outer : Condition) (guard : Expr)
    (thenStmt elseStmt : Stmt) (rest : StmtList) (msg : String)
    (herr : Condition.fromExpr guard = Except.error msg) :
    valueVisitStmt outer (.ifStmt guard thenStmt elseStmt) = []
      ∧ valueVisitStmtList outer (.cons (.ifStmt guard thenStmt elseStmt) rest)
          = valueVisitStmtList outer rest := by
  have h1 : valueVisitStmt outer (.ifStmt guard thenStmt elseStmt) = [] := by
    simp [valueVisitStmt, herr]
  exact ⟨h1, by rw [valueVisitStmtList, h1, List.nil_append]⟩

/-- Example statement following a conditional: `int svar;`. -/
def siblingExample : Stmt := .declStmt ("svar") false none

/-- Witness for C2 at `if(f())`: a call guard is not modelable; the
conditional emits nothing and the sibling statement is still traversed. -/
theorem ifStmt_guard_parse_failure_skips_witness :
    valueVisitStmt Condition.always
        (.ifStmt (.callExpr (some ("f")) .nil) thenBranchExample elseBranchExample) = []
      ∧ valueVisitStmtList Condition.always
          (.cons (.ifStmt (.callExpr (some ("f")) .nil) thenBranchExample elseBranchExample)
            (.cons siblingExample .nil))
          = valueVisitStmtList Condition.always (.cons siblingExample .nil) :=
  ifStmt_guard_parse_failure_skips Condition.always (.callExpr (some ("f")) .nil)
    thenBranchExample elseBranchExample (.cons siblingExample .nil)
    ("unsupported guard expression shape") rfl

/-- The statement `a = b + c;`: an assignment whose right side is a compound
expression containing bare variable references. -/
def compoundAssignExample : Stmt :=
  .expr (.binaryOp .assign (.declRefVar ("a"))
    (.binaryOp .other (.declRefVar ("b")) (.declRefVar ("c"))))

/-- C3 counterexample: the claim predicts that an assignment from a compound
expression emits nothing, but `a = b + c;` emits exactly one
`VarAssigned(a, CopyVar(c))` — the sub-visitor records the last variable
reference it meets (`c`), not only bare whole-variable right sides. -/
theorem varAssigned_compound_rhs_emits :
    valueVisitStmt Condition.always compoundAssignExample
      = [.VarAssigned Condition.always ⟨("a")⟩ (.CopyVar ⟨⟨("c")⟩⟩)] := by
  decide

/-- C3 (amended): a `VarAssigned` action is emitted for an assignment
operator exactly when the sub-visitor finds a candidate on each side, the
candidate being the last bare variable reference seen in preorder before any
subscript expression (references at or below a subscript, or after one, are
ignored); then exactly one `VarAssigned(target, CopyVar(source))` is
emitted.  `a = b;` emits exactly one `VarAssigned(a, CopyVar(b))`; `a = 5;`
emits nothing; `a[0] = b;` emits no `VarAssigned` (only the subscript's own
`ArrayIndexAccess`); non-assignment operators emit nothing. -/
theorem varAssigned_shape_rule (cond : Condition) (lhs rhs : Expr) :
    (binaryOpAction cond .assign lhs rhs =
      match wholeVariableCandidate lhs, wholeVariableCandidate rhs with
      | some target, some source => [.VarAssigned cond target (.CopyVar ⟨source⟩)]
      | _, _ => [])
      ∧ binaryOpAction cond .other lhs rhs = []
      ∧ valueVisitStmt cond (.expr (.binaryOp .assign (.declRefVar ("a")) (.declRefVar ("b"))))
          = [.VarAssigned cond ⟨("a")⟩ (.CopyVar ⟨⟨("b")⟩⟩)]
      ∧ valueVisitStmt cond (.expr (.binaryOp .assign (.declRefVar ("a")) (.integerLiteral 5)))
          = []
      ∧ valueVisitStmt cond
          (.expr (.binaryOp .assign (.arraySubscript (.declRefVar ("a")) (.integerLiteral 0))
            (.declRefVar ("b"))))
          = [.ArrayIndexAccess cond ⟨("a")⟩ (.Primitive ⟨0⟩)] := by
  refine ⟨?_, rfl, rfl, rfl, rfl⟩
  rw [binaryOpAction, refOrArrayFound_eq_candidate, refOrArrayFound_eq_candidate]

/-- The call `foo(x + 3)`: one argument that is a compound expression
containing an integer literal. -/
def compoundCallArgExample : Expr :=
  .callExpr (some ("foo"))
    (.cons (.binaryOp .other (.declRefVar ("x")) (.integerLiteral 3)) .nil)

/-- C4 counterexample: the claim predicts that an argument resolves to
`Primitive` only when it is a bare integer literal, but `foo(x + 3)` emits
`FunctionCall("foo", [Primitive(3)])` — the probing sub-visitor aborts at
the first integer literal found anywhere in the argument subtree. -/
theorem functionCall_compound_arg_resolves :
    valueVisitExpr Condition.always compoundCallArgExample
      = [.FunctionCall Condition.always ("foo") [.Primitive ⟨3⟩]] := by
  decide

/-- C4 (amended): every direct call emits exactly one `FunctionCall` action
carrying the callee name and one probed `VariableState` per argument in
argument order; an argument resolves to `Primitive(v)` where `v` is the
first integer literal appearing anywhere in the argument subtree in preorder
(sign-extended to 64 bits), and to `Unknown` only when the subtree contains
no integer literal.  Indirect calls (no direct callee) emit nothing, and
`foo(3, x);` emits `FunctionCall("foo", [Primitive(3), Unknown])`. -/
theorem functionCall_emission_rule (cond : Condition) (callee : String)
    (args : ExprList) (e : Expr) :
    valueVisitExpr cond (.callExpr (some callee) args)
        = [.FunctionCall cond callee (probeArgs args)]
      ∧ valueVisitExpr cond (.callExpr none args) = []
      ∧ probeArg e
          = (match (literalValues e).head? with
             | some v => VariableState.Primitive ⟨toSigned64 v⟩
             | none => VariableState.Unknown)
      ∧ valueVisitExpr cond
          (.callExpr (some ("foo")) (.cons (.integerLiteral 3) (.cons (.declRefVar ("x")) .nil)))
          = [.FunctionCall cond ("foo") [.Primitive ⟨3⟩, .Unknown]] := by
  refine ⟨rfl, rfl, ?_, rfl⟩
  rw [probeArg, stateFindExpr_eq_firstLiteral]
  cases h : (literalValues e).head? <;> simp

/-- C5: an `ArrayIndexAccess` action is emitted for a subscript expression
exactly when its base resolves through the sub-visitor to a bare variable
(a subscript met first invalidates the identification) and its index is
itself an integer literal.  `buf[3];` emits `ArrayIndexAccess(buf,
Primitive(3))`; `buf[i];` emits nothing; the outer access of `a[b[0]];`
emits nothing (only the inner literal-indexed access emits). -/
theorem arrayIndexAccess_emission_rule (cond : Condition) (base idx : Expr) :
    (subscriptAction cond base idx =
      match wholeVariableCandidate base, idx with
      | some arrayVar, .integerLiteral v =>
          [.ArrayIndexAccess cond arrayVar (.Primitive ⟨toSigned64 v⟩)]
      | _, _ => [])
      ∧ valueVisitExpr cond (.arraySubscript (.declRefVar ("buf")) (.integerLiteral 3))
          = [.ArrayIndexAccess cond ⟨("buf")⟩ (.Primitive ⟨3⟩)]
      ∧ valueVisitExpr cond (.arraySubscript (.declRefVar ("buf")) (.declRefVar ("i"))) = []
      ∧ subscriptAction cond (.declRefVar ("a"))
          (.arraySubscript (.declRefVar ("b")) (.integerLiteral 0)) = []
      ∧ valueVisitExpr cond
          (.arraySubscript (.declRefVar ("a"))
            (.arraySubscript (.declRefVar ("b")) (.integerLiteral 0)))
          = [.ArrayIndexAccess cond ⟨("b")⟩ (.Primitive ⟨0⟩)] := by
  refine ⟨?_, rfl, rfl, rfl, rfl⟩
  rw [subscriptAction, refOrArrayFound_eq_candidate]
  cases h : wholeVariableCandidate base
  · cases idx <;> rfl
  · cases idx <;> rfl

/-- C6: a local (non-parameter) declaration emits exactly one `VarDeclared`
whose state is `Buffer(byte length of the literal content, excluding any
terminator)` when the initializer is a string literal and `Unknown` for any
other or absent initializer; `char* s = "hi";` (content bytes 104, 105)
emits `VarDeclared(s, Buffer(size = 2))`; a parameter declaration emits no
`VarDeclared`. -/
theorem varDeclared_emission_rule (cond : Condition) (name : String)
    (bytes : List Nat) (init : Option Expr) :
    valueVisitStmt cond (.declStmt name false (some (.stringLiteral bytes)))
        = [.VarDeclared cond ⟨name⟩ (.Buffer (BufferInfo.fromSize bytes.length))]
      ∧ valueVisitStmt cond (.declStmt name false none)
          = [.VarDeclared cond ⟨name⟩ .Unknown]
      ∧ (valueVisitStmt cond (.declStmt name false init)).head?
          = some (.VarDeclared cond ⟨name⟩ (declInitState init))
      ∧ (declInitState init = .Unknown
          ∨ ∃ bs, init = some (.stringLiteral bs)
              ∧ declInitState init = .Buffer (BufferInfo.fromSize bs.length))
      ∧ (valueVisitStmt cond (.declStmt name true init)).filter
          ProcessedAction.isVarDeclared = []
      ∧ valueVisitStmt cond (.declStmt ("s") false (some (.stringLiteral [104, 105])))
          = [.VarDeclared cond ⟨("s")⟩ (.Buffer ⟨false, 2⟩)] := by
  refine ⟨rfl, rfl, ?_, ?_, ?_, rfl⟩
  · cases init <;> rfl
  · cases init with
    | none => exact Or.inl rfl
    | some e =>
        cases e with
        | stringLiteral bs => exact Or.inr ⟨bs, rfl, rfl⟩
        | declRefVar n => exact Or.inl rfl
        | declRefOther n => exact Or.inl rfl
        | integerLiteral v => exact Or.inl rfl
        | binaryOp opcode lhs rhs => exact Or.inl rfl
        | arraySubscript b i => exact Or.inl rfl
        | callExpr callee args => exact Or.inl rfl
  · cases init with
    | none => rfl
    | some e =>
        have hshape := valueVisitExpr_shape cond e
        refine List.filter_eq_nil_iff.mpr ?_
        intro a ha
        have ha2 : a ∈ valueVisitExpr cond e := by
          simpa [valueVisitStmt] using ha
        simp [(hshape a ha2).2]

/-- C7: on the six comparison operators, `Negate` is a fixed-point-free
involution (hence a bijection, witnessed by its own two-sided inverse)
realizing the table `<`↔`>=`, `<=`↔`>`, `!=`↔`==`. -/
theorem comparison_negate_involution :
    (∀ op : COMPARISON, Negate op ≠ op)
      ∧ (∀ op : COMPARISON, Negate (Negate op) = op)
      ∧ (∃ inv : COMPARISON → COMPARISON,
          (∀ op, inv (Negate op) = op) ∧ (∀ op, Negate (inv op) = op))
      ∧ Negate .LESS_THAN = .GREATER_THAN_EQUAL
      ∧ Negate .GREATER_THAN_EQUAL = .LESS_THAN
      ∧ Negate .LESS_THAN_EQUAL = .GREATER_THAN
      ∧ Negate .GREATER_THAN = .LESS_THAN_EQUAL
      ∧ Negate .NOT_EQUAL = .EQUAL
      ∧ Negate .EQUAL = .NOT_EQUAL := by
  refine ⟨?_, ?_, ⟨Negate, ?_, ?_⟩, rfl, rfl, rfl, rfl, rfl, rfl⟩ <;>
    intro op <;> cases op <;> decide

/-- C8: over the enum's underlying integer values, `Negate(COMPARISON)` and
`Dump(COMPARISON)` return normally on each of the six enumerators (and
`Negate` agrees there with the six-operator table) and throw exactly on
every value outside them. -/
theorem comparison_negate_dump_fatal_only_outside (v : Int) :
    ((∃ op : COMPARISON, COMPARISON.toUnderlying op = v) →
        (∃ w, NegateUnderlying v = Except.ok w) ∧ (∃ s, DumpUnderlying v = Except.ok s))
      ∧ ((∀ op : COMPARISON, COMPARISON.toUnderlying op ≠ v) →
        NegateUnderlying v = Except.error ("negate not implemented for this COMPARISON")
          ∧ DumpUnderlying v = Except.error ("dump not implemented for this COMPARISON"))
      ∧ (∀ op : COMPARISON,
          NegateUnderlying (COMPARISON.toUnderlying op)
            = Except.ok (COMPARISON.toUnderlying (Negate op))) := by
  refine ⟨?_, ?_, ?_⟩
  · rintro ⟨op, rfl⟩
    cases op <;> exact ⟨⟨_, rfl⟩, ⟨_, rfl⟩⟩
  · intro h
    have h0 : v ≠ 0 := fun hv => h .LESS_THAN (by rw [hv]; rfl)
    have h1 : v ≠ 1 := fun hv => h .LESS_THAN_EQUAL (by rw [hv]; rfl)
    have h2 : v ≠ 2 := fun hv => h .GREATER_THAN (by rw [hv]; rfl)
    have h3 : v ≠ 3 := fun hv => h .GREATER_THAN_EQUAL (by rw [hv]; rfl)
    have h4 : v ≠ 4 := fun hv => h .NOT_EQUAL (by rw [hv]; rfl)
    have h5 : v ≠ 5 := fun hv => h .EQUAL (by rw [hv]; rfl)
    constructor <;> simp [NegateUnderlying, DumpUnderlying, h0, h1, h2, h3, h4, h5]
  · intro op
    cases op <;> rfl

/-- Witness for C8: at the enumerator value 3 (`GREATER_THAN_EQUAL`) both
functions return normally, and at the out-of-range value 7 both throw. -/
theorem comparison_negate_dump_fatal_witness :
    ((∃ w, NegateUnderlying 3 = Except.ok w) ∧ (∃ s, DumpUnderlying 3 = Except.ok s))
      ∧ (NegateUnderlying 7 = Except.error ("negate not implemented for this COMPARISON")
          ∧ DumpUnderlying 7 = Except.error ("dump not implemented for this COMPARISON")) :=
  ⟨(comparison_negate_dump_fatal_only_outside 3).1 ⟨.GREATER_THAN_EQUAL, rfl⟩,
    (comparison_negate_dump_fatal_only_outside 7).2.1 (by decide)⟩

/-- The set of `BufferInfo` values producible through the two public
constructors of `BufferInfo`. -/
inductive BufferInfo.Constructed : BufferInfo → Prop where
  | viaNullptr : BufferInfo.Constructed BufferInfo.fromNullptr
  | viaSize (size : Nat) : BufferInfo.Constructed (BufferInfo.fromSize size)

/-- C9: the nullptr constructor yields `NullPtr = true` with no allocated
size, the size constructor yields `NullPtr = false` with the given size, and
no constructed `BufferInfo` is simultaneously null and sized. -/
theorem bufferInfo_null_xor_sized :
    BufferInfo.fromNullptr.NullPtr = true
      ∧ BufferInfo.fromNullptr.AllocatedSize = 0
      ∧ (∀ size : Nat, (BufferInfo.fromSize size).NullPtr = false
          ∧ (BufferInfo.fromSize size).AllocatedSize = size)
      ∧ (∀ b : BufferInfo, BufferInfo.Constructed b →
          ¬(b.NullPtr = true ∧ b.AllocatedSize ≠ 0)) := by
  refine ⟨rfl, rfl, fun size => ⟨rfl, rfl⟩, ?_⟩
  intro b hb
  cases hb with
  | viaNullptr => rintro ⟨h1, h2⟩; exact h2 rfl
  | viaSize size => rintro ⟨h1, h2⟩; simp [BufferInfo.fromSize] at h1

/-- Witness for C9 at the concrete constructed value `BufferInfo(4)`. -/
theorem bufferInfo_null_xor_sized_witness :
    BufferInfo.Constructed (BufferInfo.fromSize 4)
      ∧ ¬((BufferInfo.fromSize 4).NullPtr = true
          ∧ (BufferInfo.fromSize 4).AllocatedSize ≠ 0) :=
  ⟨.viaSize 4, bufferInfo_null_xor_sized.2.2.2 (BufferInfo.fromSize 4) (.viaSize 4)⟩

/-- C10: every visit of a function declaration — with or without a body —
adds exactly one block to the registry, keyed by the function's qualified
name and declaration location; two visits of declarations sharing a
qualified name (a forward declaration and the definition) therefore produce
two insertions under the same function name. -/
theorem traverseFunctionDecl_one_block_per_visit (registry : BlockRegistry)
    (fn fn2 : FunctionDecl) :
    TraverseFunctionDecl registry fn = registry ++ [functionBlock fn]
      ∧ (TraverseFunctionDecl registry fn).length = registry.length + 1
      ∧ (functionBlock fn).Name = fn.qualifiedName
      ∧ (functionBlock fn).Loc = fn.beginLoc
      ∧ TraverseFunctionDecl (TraverseFunctionDecl registry fn) fn2
          = registry ++ [functionBlock fn, functionBlock fn2]
      ∧ (fn.qualifiedName = fn2.qualifiedName →
          (functionBlock fn).Name = (functionBlock fn2).Name) := by
  refine ⟨rfl, ?_, rfl, rfl, ?_, fun h => h⟩
  · simp [TraverseFunctionDecl, AddBlock]
  · simp [TraverseFunctionDecl, AddBlock]

/-- A forward declaration `void f(int x);` (no body). -/
def forwardDeclExample : FunctionDecl := ⟨("f"), 10, [("x")], none⟩

/-- A later definition of `f` with a body, at another location. -/
def functionDefExample : FunctionDecl :=
  ⟨("f"), 20, [("x")], some (.compound (.cons (.declStmt ("y") false none) .nil))⟩

/-- Witness for C10: visiting the forward declaration and then the
definition of `f` inserts two blocks, both under the function name `f`. -/
theorem traverseFunctionDecl_one_block_per_visit_witness :
    TraverseFunctionDecl (TraverseFunctionDecl [] forwardDeclExample) functionDefExample
        = [functionBlock forwardDeclExample, functionBlock functionDefExample]
      ∧ (functionBlock forwardDeclExample).Name = (functionBlock functionDefExample).Name :=
  ⟨by simpa using
      (traverseFunctionDecl_one_block_per_visit [] forwardDeclExample
        functionDefExample).2.2.2.2.1,
    (traverseFunctionDecl_one_block_per_visit [] forwardDeclExample
        functionDefExample).2.2.2.2.2 rfl⟩

end smacpp
